import Mathlib

/-!
Verification of the Asynchronous Successive Halving pruner
(`optuna/pruners/successive_halving.py`).

The development is a shallow embedding of the module: Python floats are
modelled as rationals extended with a NaN marker, the per-trial
`system_attrs` dictionary (restricted to the `completed_rung_i` keys the
module reads and writes, keyed here by the rung index `i` since the key
format string is injective in `i`) is an association list, and the
`while True` orchestration loop of `SuccessiveHalvingPruner.prune` is a
fuel-indexed recursion whose fuel is provably sufficient.  The persistent
side effects of a `prune` call (`set_trial_system_attr` invocations) are
returned explicitly as a list of `(rung, value)` writes.
-/

namespace SuccessiveHalving

/-- Optimization direction of a study (`optuna.structs.StudyDirection`). -/
inductive StudyDirection
  | minimize
  | maximize
deriving DecidableEq

/-- Modelled from the spec: an intermediate measurement value reported by a
trial.  A Python float is either NaN (which `math.isnan` detects) or an
ordinary comparable number, modelled as a rational. -/
inductive Fl
  | nan
  | val (q : ℚ)
deriving DecidableEq

/-- Embedding of `math.isnan` on the value model. -/
def Fl.isnan : Fl → Bool
  | Fl.nan => true
  | Fl.val _ => false

/-- Modelled from the spec: the slice of the external `FrozenTrial` record
this module reads — the trial id, the most recent reported measurement
(`last_step` together with `intermediate_values[last_step]`, absent before
the first report), and the persisted per-rung completion markers
(`system_attrs` restricted to the `completed_rung_i` keys, an association
list from rung index to recorded value). -/
structure FrozenTrial where
  trial_id : ℕ
  last : Option (ℕ × Fl)
  system_attrs : List (ℕ × ℚ)
deriving DecidableEq

/-- Modelled from the spec: the slice of the external `Study` the module
uses — its direction and the snapshot of all trials that
`study.get_trials` returns. -/
structure Study where
  direction : StudyDirection
  trials : List FrozenTrial
deriving DecidableEq

/-- Configuration of `SuccessiveHalvingPruner` (the three constructor
arguments, stored as the fields `_min_resource`, `_reduction_factor` and
`_min_early_stopping_rate`). -/
structure SuccessiveHalvingPruner where
  min_resource : ℤ
  reduction_factor : ℤ
  min_early_stopping_rate : ℤ
deriving DecidableEq

/-- Embedding of `SuccessiveHalvingPruner.__init__`: the eager argument
validation, returning the raised `ValueError` message as `Except.error`. -/
def SuccessiveHalvingPruner.init (min_resource reduction_factor min_early_stopping_rate : ℤ) :
    Except String SuccessiveHalvingPruner :=
  if min_resource < 1 then
    Except.error "The value of min_resource must satisfy min_resource >= 1"
  else if reduction_factor < 2 then
    Except.error "The value of reduction_factor must satisfy reduction_factor >= 2"
  else if min_early_stopping_rate < 0 then
    Except.error "The value of min_early_stopping_rate must satisfy min_early_stopping_rate >= 0"
  else
    Except.ok ⟨min_resource, reduction_factor, min_early_stopping_rate⟩

/-- Validity of a configuration: exactly the conditions `__init__` accepts. -/
def validConfig (p : SuccessiveHalvingPruner) : Prop :=
  1 ≤ p.min_resource ∧ 2 ≤ p.reduction_factor ∧ 0 ≤ p.min_early_stopping_rate

instance (p : SuccessiveHalvingPruner) : Decidable (validConfig p) := by
  unfold validConfig
  infer_instance

/-- Embedding of the rung threshold computed in `prune`:
`rung_promotion_step = min_resource * reduction_factor ** (min_early_stopping_rate + rung)`. -/
def rungPromotionStep (p : SuccessiveHalvingPruner) (rung : ℕ) : ℤ :=
  p.min_resource * p.reduction_factor ^ (p.min_early_stopping_rate + (rung : ℤ)).toNat

/-- Membership test `_completed_rung_key(rung) in trial.system_attrs`. -/
def isMarked (trial : FrozenTrial) (rung : ℕ) : Bool :=
  (trial.system_attrs.lookup rung).isSome

/-- Fuel-indexed version of the `while` loop of `_get_current_rung`. -/
def getCurrentRungAux (trial : FrozenTrial) : ℕ → ℕ → ℕ
  | rung, 0 => rung
  | rung, fuel + 1 =>
    if isMarked trial rung then getCurrentRungAux trial (rung + 1) fuel else rung

/-- Embedding of `_get_current_rung`: scan `rung = 0, 1, 2, …` while a
completion marker exists.  The fuel `length + 1` is provably sufficient
(`getCurrentRung_eq` below shows the result is the least unmarked rung). -/
def getCurrentRung (trial : FrozenTrial) : ℕ :=
  getCurrentRungAux trial 0 (trial.system_attrs.length + 1)

/-- Embedding of `_get_competing_values`: the recorded value of every trial
in the snapshot holding a marker at this rung (in snapshot order, with
multiplicity), with the deciding trial's own value appended. -/
def getCompetingValues (trials : List FrozenTrial) (value : ℚ) (rung : ℕ) : List ℚ :=
  (trials.filterMap (fun t => t.system_attrs.lookup rung)) ++ [value]

/-- Embedding of the `promotable_idx` computation in
`_is_trial_promotable_to_next_rung`: `len(competing_values) // reduction_factor - 1`,
with `-1` replaced by `0` (the documented policy for the first
`reduction_factor - 1` arrivals at a rung). -/
def promotableIdx (n : ℕ) (reduction_factor : ℤ) : ℤ :=
  if (n : ℤ) / reduction_factor - 1 = -1 then 0 else (n : ℤ) / reduction_factor - 1

/-- Embedding of `_is_trial_promotable_to_next_rung`: sort the competing
values ascending and compare the trial's value against the order statistic
selected by `promotableIdx` (`sorted[-(idx+1)]`, i.e. position
`len - (idx+1)`, for maximize; `sorted[idx]` for minimize). -/
def isTrialPromotableToNextRung (value : ℚ) (competing_values : List ℚ)
    (reduction_factor : ℤ) (study_direction : StudyDirection) : Bool :=
  match study_direction with
  | StudyDirection.maximize =>
      decide ((competing_values.insertionSort (· ≤ ·)).getD
        ((competing_values.insertionSort (· ≤ ·)).length -
          ((promotableIdx competing_values.length reduction_factor).toNat + 1)) 0 ≤ value)
  | StudyDirection.minimize =>
      decide (value ≤ (competing_values.insertionSort (· ≤ ·)).getD
        (promotableIdx competing_values.length reduction_factor).toNat 0)

/-- Fuel-indexed embedding of the `while True` loop of
`SuccessiveHalvingPruner.prune`, starting at a given rung.  The second
component accumulates the `set_trial_system_attr` writes `(rung, value)`
performed for the deciding trial; the competing values are taken from the
snapshot `study.trials`, which a write during the call does not alter. -/
def pruneLoop (cfg : SuccessiveHalvingPruner) (study : Study) (step : ℕ) (value : Fl) :
    ℕ → List (ℕ × ℚ) → ℕ → Bool × List (ℕ × ℚ)
  | _rung, ws, 0 => (false, ws)
  | rung, ws, fuel + 1 =>
    if (step : ℤ) < rungPromotionStep cfg rung then (false, ws)
    else
      match value with
      | Fl.nan => (true, ws)
      | Fl.val q =>
        if isTrialPromotableToNextRung q (getCompetingValues study.trials q rung)
            cfg.reduction_factor study.direction then
          pruneLoop cfg study step (Fl.val q) (rung + 1) (ws ++ [(rung, q)]) fuel
        else (true, ws ++ [(rung, q)])

/-- Embedding of `SuccessiveHalvingPruner.prune`: the returned boolean is
the prune decision and the returned list records the completion markers
written for the deciding trial during the call.  The fuel `step + 2` is
provably sufficient for valid configurations, since thresholds grow
geometrically in the rung index. -/
def prune (cfg : SuccessiveHalvingPruner) (study : Study) (trial : FrozenTrial) :
    Bool × List (ℕ × ℚ) :=
  match trial.last with
  | none => (false, [])
  | some (step, value) =>
      pruneLoop cfg study step value (getCurrentRung trial) [] ((step + 1) + 1)

/-- Modelled from the spec: the external trial store's durable
`set attribute(trial_id, key, value)` operation on one association list;
a later binding for the same key shadows an earlier one. -/
def setSystemAttr (attrs : List (ℕ × ℚ)) (rung : ℕ) (q : ℚ) : List (ℕ × ℚ) :=
  (rung, q) :: attrs

/-- Replay a list of recorded writes onto a trial's persisted attributes. -/
def applyWrites (t : FrozenTrial) (ws : List (ℕ × ℚ)) : FrozenTrial :=
  ⟨t.trial_id, t.last, ws.foldl (fun a p => setSystemAttr a p.1 p.2) t.system_attrs⟩

/-- Modelled from the spec: the store after a `prune` call attributes the
call's writes to exactly the deciding trial; all other trials' records are
unchanged. -/
def updateStudy (study : Study) (tid : ℕ) (ws : List (ℕ × ℚ)) : Study :=
  ⟨study.direction, study.trials.map (fun t => if t.trial_id = tid then applyWrites t ws else t)⟩

/-- Spec-side selector for claim C1: the `(i+1)`-th smallest element of a
list (position `i` of the ascending sort). -/
def kthSmallest (l : List ℚ) (i : ℕ) : ℚ :=
  (l.insertionSort (· ≤ ·)).getD i 0

/-- Spec-side selector for claim C1: the `(i+1)`-th largest element of a
list (position `length - 1 - i` of the ascending sort). -/
def kthLargest (l : List ℚ) (i : ℕ) : ℚ :=
  (l.insertionSort (· ≤ ·)).getD (l.length - 1 - i) 0

/-- Spec-side definition for claim C3's refinement comparison, following
the spec's words: `competing_values` as the set union of the values
recorded at the rung's marker and the deciding trial's own value. -/
def getCompetingValuesSpecSet (trials : List FrozenTrial) (value : ℚ) (rung : ℕ) : Finset ℚ :=
  (trials.filterMap (fun t => t.system_attrs.lookup rung)).toFinset ∪ {value}

/-- Invariant of claim C5: the rung indices holding a persisted completion
marker form a downward-closed prefix of the naturals. -/
def PrefixMarked (t : FrozenTrial) : Prop :=
  ∃ k, ∀ r, isMarked t r = true ↔ r < k

/-- Concrete configuration used by the witnesses:
`min_resource = 1`, `reduction_factor = 2`, `min_early_stopping_rate = 0`. -/
def cfg0 : SuccessiveHalvingPruner := ⟨1, 2, 0⟩

/-- Concrete trial: last report `(step 2, value 10)`, no markers yet. -/
def trialT : FrozenTrial := ⟨0, some (2, Fl.val 10), []⟩

/-- Concrete trial: no report yet, a rung-0 marker with value 1. -/
def trialU : FrozenTrial := ⟨1, none, [(0, 1)]⟩

/-- Concrete trial: a NaN report at step 1, no markers. -/
def trialN : FrozenTrial := ⟨2, some (1, Fl.nan), []⟩

/-- Concrete trial: a report at step 0 (before the first threshold). -/
def trialV : FrozenTrial := ⟨3, some (0, Fl.val 7), []⟩

/-- Concrete minimization study holding `trialT` and `trialU`. -/
def study0 : Study := ⟨StudyDirection.minimize, [trialT, trialU]⟩

/-- Concrete snapshot for claim C3: four trials whose rung-0 markers hold
the values 3, 5, 5, 5. -/
def trialsC3 : List FrozenTrial :=
  [⟨10, none, [(0, 3)]⟩, ⟨11, none, [(0, 5)]⟩, ⟨12, none, [(0, 5)]⟩, ⟨13, none, [(0, 5)]⟩]

/-! Supporting lemmas. -/

/-- Index arithmetic lemma: `promotableIdx` agrees with the clamped form
`max 0 (n / rf - 1)` whenever the divisor is positive. -/
lemma promotableIdx_eq_max (n : ℕ) (rf : ℤ) (h : 0 < rf) :
    promotableIdx n rf = max 0 ((n : ℤ) / rf - 1) := by
  have hdiv : 0 ≤ (n : ℤ) / rf := Int.ediv_nonneg (by positivity) (le_of_lt h)
  unfold promotableIdx
  by_cases hc : (n : ℤ) / rf - 1 = -1
  · rw [if_pos hc, hc]
    decide
  · rw [if_neg hc, max_eq_right (by omega)]

/-- Association-list lemma: a successful lookup means the key occurs among
the stored keys. -/
lemma lookup_isSome_mem (i : ℕ) (a : List (ℕ × ℚ))
    (h : (List.lookup i a).isSome = true) : i ∈ a.map Prod.fst := by
  induction a with
  | nil => simp [List.lookup] at h
  | cons p rest ih =>
      obtain ⟨k, q⟩ := p
      by_cases hk : k = i
      · simp [hk]
      · have hbeq : (i == k) = false := by
          simpa using fun hik => hk hik.symm
        rw [List.lookup, hbeq] at h
        simp only [List.map_cons, List.mem_cons]
        exact Or.inr (ih h)

/-- Pigeonhole bound: if every rung below `k` carries a marker then `k` is
at most the number of stored attributes. -/
lemma prefix_le_length (t : FrozenTrial) (k : ℕ)
    (h : ∀ r, r < k → isMarked t r = true) : k ≤ t.system_attrs.length := by
  have hsub : Finset.range k ⊆ (t.system_attrs.map Prod.fst).toFinset := by
    intro r hr
    rw [List.mem_toFinset]
    exact lookup_isSome_mem r _ (h r (Finset.mem_range.mp hr))
  have h1 := Finset.card_le_card hsub
  rw [Finset.card_range] at h1
  calc k ≤ (t.system_attrs.map Prod.fst).toFinset.card := h1
    _ ≤ (t.system_attrs.map Prod.fst).length := List.toFinset_card_le _
    _ = t.system_attrs.length := by simp

/-- Correctness of the fuelled scan: given enough fuel it returns the least
unmarked rung at or above the start. -/
lemma getCurrentRungAux_eq (t : FrozenTrial) :
    ∀ fuel start k, start ≤ k → k < start + fuel →
      (∀ r, start ≤ r → r < k → isMarked t r = true) → isMarked t k = false →
      getCurrentRungAux t start fuel = k := by
  intro fuel
  induction fuel with
  | zero =>
      intro start k h1 h2 _ _
      omega
  | succ fuel ih =>
      intro start k h1 h2 hmk hk
      by_cases hs : start = k
      · subst hs
        simp [getCurrentRungAux, hk]
      · have hm : isMarked t start = true := hmk start (le_refl _) (by omega)
        rw [getCurrentRungAux, hm]
        simp only [if_true]
        exact ih (start + 1) k (by omega) (by omega)
          (fun r hr1 hr2 => hmk r (by omega) hr2) hk

/-- `_get_current_rung` returns the least unmarked rung: if every rung
below `k` carries a marker and `k` does not, the scan stops at `k`. -/
lemma getCurrentRung_eq (t : FrozenTrial) (k : ℕ)
    (hmk : ∀ r, r < k → isMarked t r = true) (hk : isMarked t k = false) :
    getCurrentRung t = k := by
  have hle := prefix_le_length t k hmk
  exact getCurrentRungAux_eq t (t.system_attrs.length + 1) 0 k (by omega) (by omega)
    (fun r _ hr => hmk r hr) hk

/-- Replaying writes adds exactly the written keys to the marked set. -/
lemma foldl_setSystemAttr_isSome :
    ∀ (ws : List (ℕ × ℚ)) (a : List (ℕ × ℚ)) (i : ℕ),
      (List.lookup i (ws.foldl (fun acc p => setSystemAttr acc p.1 p.2) a)).isSome = true ↔
        ((List.lookup i a).isSome = true ∨ i ∈ ws.map Prod.fst) := by
  intro ws
  induction ws with
  | nil =>
      intro a i
      simp
  | cons p rest ih =>
      intro a i
      obtain ⟨k, q⟩ := p
      rw [List.foldl_cons, ih]
      have hcons : (List.lookup i (setSystemAttr a k q)).isSome = true ↔
          (i = k ∨ (List.lookup i a).isSome = true) := by
        by_cases h : k = i
        · simp [setSystemAttr, List.lookup, h]
        · have hne : ¬i = k := fun hik => h hik.symm
          have hbeq : (i == k) = false := by simpa using hne
          rw [setSystemAttr, List.lookup, hbeq]
          simp [hne]
      rw [hcons]
      simp only [List.map_cons, List.mem_cons]
      tauto

/-- Marker membership after `applyWrites`. -/
lemma applyWrites_isMarked (t : FrozenTrial) (ws : List (ℕ × ℚ)) (i : ℕ) :
    isMarked (applyWrites t ws) i = true ↔
      (isMarked t i = true ∨ i ∈ ws.map Prod.fst) := by
  simpa [isMarked, applyWrites] using foldl_setSystemAttr_isSome ws t.system_attrs i

/-- `applyWrites` does not change the reported measurements. -/
lemma applyWrites_last (t : FrozenTrial) (ws : List (ℕ × ℚ)) :
    (applyWrites t ws).last = t.last := rfl

/-- Replaying no writes is the identity. -/
lemma applyWrites_nil (t : FrozenTrial) : applyWrites t [] = t := rfl

/-- Threshold growth: for a valid configuration the rung threshold exceeds
the rung index, because thresholds are at least `2 ^ rung`. -/
lemma lt_rungPromotionStep (p : SuccessiveHalvingPruner) (hv : validConfig p) (r : ℕ) :
    (r : ℤ) < rungPromotionStep p r := by
  obtain ⟨h1, h2, h3⟩ := hv
  unfold rungPromotionStep
  have he : (p.min_early_stopping_rate + (r : ℤ)).toNat
      = p.min_early_stopping_rate.toNat + r := by omega
  rw [he]
  have g1 : (r : ℤ) < 2 ^ r := by exact_mod_cast Nat.lt_two_pow r
  have g2 : (2 : ℤ) ^ r ≤ 2 ^ (p.min_early_stopping_rate.toNat + r) :=
    pow_le_pow_right₀ (by norm_num) (by omega)
  have g3 : (2 : ℤ) ^ (p.min_early_stopping_rate.toNat + r)
      ≤ p.reduction_factor ^ (p.min_early_stopping_rate.toNat + r) :=
    pow_le_pow_left₀ (by norm_num) h2 _
  have g4 : p.reduction_factor ^ (p.min_early_stopping_rate.toNat + r)
      ≤ p.min_resource * p.reduction_factor ^ (p.min_early_stopping_rate.toNat + r) :=
    le_mul_of_one_le_left (pow_nonneg (by omega) _) h1
  exact lt_of_lt_of_le g1 (le_trans g2 (le_trans g3 g4))

/-- Shape of the writes of a `pruneLoop` run: the keys written are a
consecutive block of rungs starting at the initial rung. -/
lemma pruneLoop_writes (cfg : SuccessiveHalvingPruner) (study : Study) (step : ℕ) (v : Fl) :
    ∀ fuel rung ws, ∃ m, rung ≤ m ∧
      ∀ i, (i ∈ (pruneLoop cfg study step v rung ws fuel).2.map Prod.fst ↔
        (i ∈ ws.map Prod.fst ∨ (rung ≤ i ∧ i < m))) := by
  intro fuel
  induction fuel with
  | zero =>
      intro rung ws
      refine ⟨rung, le_refl _, ?_⟩
      intro i
      have hno : ¬(rung ≤ i ∧ i < rung) := by omega
      simp [pruneLoop, hno]
  | succ fuel ih =>
      intro rung ws
      by_cases h1 : (step : ℤ) < rungPromotionStep cfg rung
      · refine ⟨rung, le_refl _, ?_⟩
        intro i
        have hno : ¬(rung ≤ i ∧ i < rung) := by omega
        simp [pruneLoop, h1, hno]
      · cases v with
        | nan =>
            refine ⟨rung, le_refl _, ?_⟩
            intro i
            have hno : ¬(rung ≤ i ∧ i < rung) := by omega
            simp [pruneLoop, h1, hno]
        | val q =>
            by_cases h2 : isTrialPromotableToNextRung q
                (getCompetingValues study.trials q rung) cfg.reduction_factor study.direction
            · obtain ⟨m, hm, hiff⟩ := ih (rung + 1) (ws ++ [(rung, q)])
              refine ⟨m, by omega, ?_⟩
              intro i
              have hrec : (pruneLoop cfg study step (Fl.val q) rung ws (fuel + 1)).2
                  = (pruneLoop cfg study step (Fl.val q) (rung + 1) (ws ++ [(rung, q)]) fuel).2 := by
                simp [pruneLoop, h1, h2]
              rw [hrec, hiff i]
              simp only [List.map_append, List.mem_append, List.map_cons, List.map_nil,
                List.mem_cons, List.not_mem_nil, or_false]
              constructor
              · rintro ((ha | hb) | hc)
                · exact Or.inl ha
                · exact Or.inr (by omega)
                · exact Or.inr (by omega)
              · rintro (ha | hb)
                · exact Or.inl (Or.inl ha)
                · by_cases hi : i = rung
                  · exact Or.inl (Or.inr hi)
                  · exact Or.inr (by omega)
            · refine ⟨rung + 1, by omega, ?_⟩
              intro i
              have hres : (pruneLoop cfg study step (Fl.val q) rung ws (fuel + 1)).2
                  = ws ++ [(rung, q)] := by
                simp [pruneLoop, h1, h2]
              rw [hres]
              simp only [List.map_append, List.mem_append, List.map_cons, List.map_nil,
                List.mem_cons, List.not_mem_nil, or_false]
              constructor
              · rintro (ha | hb)
                · exact Or.inl ha
                · exact Or.inr (by omega)
              · rintro (ha | hb)
                · exact Or.inl ha
                · exact Or.inr (by omega)

/-- Exit analysis of a `pruneLoop` run that decided not to prune: with a
valid configuration and enough fuel the loop stopped at some rung `m`
whose threshold the last step has not reached, and the writes cover
exactly the rungs from the initial one up to `m` (exclusive). -/
lemma pruneLoop_false (cfg : SuccessiveHalvingPruner) (study : Study) (step : ℕ) (v : Fl)
    (hv : validConfig cfg) :
    ∀ fuel rung ws ws2, step + 1 ≤ rung + fuel →
      pruneLoop cfg study step v rung ws fuel = (false, ws2) →
      ∃ m, rung ≤ m ∧ (step : ℤ) < rungPromotionStep cfg m ∧
        ∀ i, (i ∈ ws2.map Prod.fst ↔ (i ∈ ws.map Prod.fst ∨ (rung ≤ i ∧ i < m))) := by
  intro fuel
  induction fuel with
  | zero =>
      intro rung ws ws2 hfuel heq
      have hws : ws = ws2 := by simpa [pruneLoop] using heq
      subst hws
      have hrs : (step : ℤ) < (rung : ℤ) := by exact_mod_cast (by omega : step < rung)
      refine ⟨rung, le_refl _, lt_trans hrs (lt_rungPromotionStep cfg hv rung), ?_⟩
      intro i
      have hno : ¬(rung ≤ i ∧ i < rung) := by omega
      simp [hno]
  | succ fuel ih =>
      intro rung ws ws2 hfuel heq
      by_cases h1 : (step : ℤ) < rungPromotionStep cfg rung
      · have hws : ws = ws2 := by simpa [pruneLoop, h1] using heq
        subst hws
        refine ⟨rung, le_refl _, h1, ?_⟩
        intro i
        have hno : ¬(rung ≤ i ∧ i < rung) := by omega
        simp [hno]
      · cases v with
        | nan =>
            exfalso
            simp [pruneLoop, h1] at heq
        | val q =>
            by_cases h2 : isTrialPromotableToNextRung q
                (getCompetingValues study.trials q rung) cfg.reduction_factor study.direction
            · have hrec : pruneLoop cfg study step (Fl.val q) (rung + 1) (ws ++ [(rung, q)]) fuel
                  = (false, ws2) := by
                rw [← heq]
                simp [pruneLoop, h1, h2]
              obtain ⟨m, hm, hthr, hiff⟩ := ih (rung + 1) (ws ++ [(rung, q)]) ws2 (by omega) hrec
              refine ⟨m, by omega, hthr, ?_⟩
              intro i
              rw [hiff i]
              simp only [List.map_append, List.mem_append, List.map_cons, List.map_nil,
                List.mem_cons, List.not_mem_nil, or_false]
              constructor
              · rintro ((ha | hb) | hc)
                · exact Or.inl ha
                · exact Or.inr (by omega)
                · exact Or.inr (by omega)
              · rintro (ha | hb)
                · exact Or.inl (Or.inl ha)
                · by_cases hi : i = rung
                  · exact Or.inl (Or.inr hi)
                  · exact Or.inr (by omega)
            · exfalso
              simp [pruneLoop, h1, h2] at heq

/-- Reduction lemma: a loop iteration at a rung whose threshold exceeds
the last step stops immediately without pruning or writing. -/
lemma pruneLoop_stop (cfg : SuccessiveHalvingPruner) (study : Study) (step : ℕ) (v : Fl)
    (rung : ℕ) (ws : List (ℕ × ℚ)) (fuel : ℕ)
    (h : (step : ℤ) < rungPromotionStep cfg rung) :
    pruneLoop cfg study step v rung ws (fuel + 1) = (false, ws) := by
  simp [pruneLoop, h]

/-! Claim theorems. -/

/-- Claim C1: for every value, every non-empty competing list of length
`n`, every `reduction_factor ≥ 2` and either direction, the promotion
decision promotes iff, letting `idx = max 0 (n / reduction_factor - 1)`,
for minimize the value is `≤` the `(idx+1)`-th smallest competing value
and for maximize it is `≥` the `(idx+1)`-th largest (ties promote). -/
theorem claim_C1 (v : ℚ) (cs : List ℚ) (rf : ℤ) (dir : StudyDirection)
    (h1 : cs ≠ []) (h2 : 2 ≤ rf) :
    isTrialPromotableToNextRung v cs rf dir = true ↔
      (match dir with
       | StudyDirection.minimize =>
           v ≤ kthSmallest cs (max 0 ((cs.length : ℤ) / rf - 1)).toNat
       | StudyDirection.maximize =>
           kthLargest cs (max 0 ((cs.length : ℤ) / rf - 1)).toNat ≤ v) := by
  have hidx := promotableIdx_eq_max cs.length rf (by omega)
  have hn : 1 ≤ cs.length := List.length_pos.mpr h1
  have hlen : (cs.insertionSort (· ≤ ·)).length = cs.length :=
    List.length_insertionSort _ _
  cases dir with
  | minimize =>
      simp only [isTrialPromotableToNextRung, kthSmallest, hidx, decide_eq_true_iff]
  | maximize =>
      simp only [isTrialPromotableToNextRung, kthLargest, hidx, decide_eq_true_iff, hlen]
      rw [show cs.length - ((max 0 ((cs.length : ℤ) / rf - 1)).toNat + 1)
            = cs.length - 1 - (max 0 ((cs.length : ℤ) / rf - 1)).toNat by omega]

/-- Witness for C1 at the spec's own example: four competitors with values
5, 10, 15, 20 under minimize with `reduction_factor = 4`; the cutoff index
is 0 and value 5 promotes. -/
theorem claim_C1_witness :
    ([(5 : ℚ), 10, 15, 20] ≠ []) ∧ ((2 : ℤ) ≤ 4) ∧
      (isTrialPromotableToNextRung 5 [(5 : ℚ), 10, 15, 20] 4 StudyDirection.minimize = true ↔
        (5 : ℚ) ≤ kthSmallest [(5 : ℚ), 10, 15, 20]
          (max 0 ((([(5 : ℚ), 10, 15, 20].length : ℤ)) / 4 - 1)).toNat) :=
  ⟨by decide, by decide,
    claim_C1 5 [(5 : ℚ), 10, 15, 20] 4 StudyDirection.minimize (by decide) (by decide)⟩

/-- Claim C3 (amended): the competing-values collection is a list, not a
set — it holds one entry per trial in the snapshot carrying a marker at
the rung (with multiplicity) plus the deciding trial's value appended
once.  Stated as an exact multiplicity count for every rational. -/
theorem claim_C3 (trials : List FrozenTrial) (v : ℚ) (rung : ℕ) (x : ℚ) :
    (getCompetingValues trials v rung).count x =
      trials.countP (fun t => decide (t.system_attrs.lookup rung = some x)) +
        (if v = x then 1 else 0) := by
  unfold getCompetingValues
  rw [List.count_append]
  have hsing : List.count x [v] = if v = x then 1 else 0 := by
    by_cases h : v = x <;> simp [List.count_singleton, h]
  rw [hsing]
  congr 1
  induction trials with
  | nil => simp
  | cons t ts ih =>
      rw [List.filterMap_cons, List.countP_cons]
      cases h : t.system_attrs.lookup rung with
      | none =>
          simp only [h]
          rw [ih]
          simp
      | some q =>
          simp only [h]
          rw [List.count_cons, ih]
          by_cases hq : q = x
          · simp [hq]
          · simp [hq, Ne.symm hq]

/-- Counterexample to C3 as stated: with snapshot markers 3, 5, 5, 5 at
rung 0 and deciding value 4, the code passes the list `[3, 5, 5, 5, 4]`
(value 5 contributes three times), while the spec's set union is
`{3, 4, 5}`; with `reduction_factor = 2` under minimize the decision on
the list promotes but the decision on the deduplicated set prunes. -/
theorem claim_C3_counterexample :
    getCompetingValues trialsC3 4 0 = [3, 5, 5, 5, 4] ∧
    getCompetingValuesSpecSet trialsC3 4 0 = ({3, 4, 5} : Finset ℚ) ∧
    isTrialPromotableToNextRung 4 [3, 5, 5, 5, 4] 2 StudyDirection.minimize = true ∧
    isTrialPromotableToNextRung 4 [3, 4, 5] 2 StudyDirection.minimize = false := by
  refine ⟨by decide, by decide, by decide, by decide⟩

/-- Witness for C3 evaluating the count equation at the concrete snapshot:
value 5 is counted three times among the markers and is not the deciding
value. -/
theorem claim_C3_witness :
    (getCompetingValues trialsC3 4 0).count 5 =
      trialsC3.countP (fun t => decide (t.system_attrs.lookup 0 = some 5)) +
        (if (4 : ℚ) = 5 then 1 else 0) :=
  claim_C3 trialsC3 4 0 5

/-- Claim C7: a trial with no reported measurement is never pruned and the
call performs no writes. -/
theorem claim_C7 (cfg : SuccessiveHalvingPruner) (study : Study) (t : FrozenTrial)
    (h : t.last = none) :
    prune cfg study t = (false, []) := by
  simp [prune, h]

/-- Witness for C7: `trialU` has no report and is not pruned. -/
theorem claim_C7_witness :
    trialU.last = none ∧ prune cfg0 study0 trialU = (false, []) :=
  ⟨rfl, claim_C7 cfg0 study0 trialU rfl⟩

/-- Claim C8: construction fails exactly when `min_resource < 1`,
`reduction_factor < 2` or `min_early_stopping_rate < 0`, and otherwise
succeeds, storing the three parameters. -/
theorem claim_C8 (mr rf mesr : ℤ) :
    ((∃ e, SuccessiveHalvingPruner.init mr rf mesr = Except.error e) ↔
      (mr < 1 ∨ rf < 2 ∨ mesr < 0)) ∧
    (1 ≤ mr ∧ 2 ≤ rf ∧ 0 ≤ mesr →
      SuccessiveHalvingPruner.init mr rf mesr = Except.ok ⟨mr, rf, mesr⟩) := by
  unfold SuccessiveHalvingPruner.init
  by_cases a : mr < 1 <;> by_cases b : rf < 2 <;> by_cases c : mesr < 0 <;>
    simp [a, b, c]

/-- Witness for C8 at `min_resource = 0` (with the other arguments at
their defaults 4 and 0): construction fails. -/
theorem claim_C8_witness :
    ((∃ e, SuccessiveHalvingPruner.init 0 4 0 = Except.error e) ↔
      ((0 : ℤ) < 1 ∨ (4 : ℤ) < 2 ∨ (0 : ℤ) < 0)) ∧
    ((1 : ℤ) ≤ 0 ∧ (2 : ℤ) ≤ 4 ∧ (0 : ℤ) ≤ 0 →
      SuccessiveHalvingPruner.init 0 4 0 = Except.ok ⟨0, 4, 0⟩) :=
  claim_C8 0 4 0

/-- Claim C9: for every valid configuration the rung threshold
`min_resource * reduction_factor ^ (min_early_stopping_rate + s)` is
strictly increasing in the rung index. -/
theorem claim_C9 (p : SuccessiveHalvingPruner) (hv : validConfig p)
    (s t : ℕ) (hst : s < t) :
    rungPromotionStep p s < rungPromotionStep p t := by
  obtain ⟨h1, h2, h3⟩ := hv
  unfold rungPromotionStep
  have he : ∀ u : ℕ, (p.min_early_stopping_rate + (u : ℤ)).toNat
      = p.min_early_stopping_rate.toNat + u := by
    intro u; omega
  rw [he s, he t]
  refine mul_lt_mul_of_pos_left ?_ (by omega)
  exact pow_lt_pow_right₀ (by omega) (by omega)

/-- Witness for C9: with the concrete configuration `cfg0` the threshold
of rung 0 is below the threshold of rung 1. -/
theorem claim_C9_witness :
    validConfig cfg0 ∧ 0 < 1 ∧ rungPromotionStep cfg0 0 < rungPromotionStep cfg0 1 :=
  ⟨by decide, by decide, claim_C9 cfg0 (by decide) 0 1 (by decide)⟩

/-- Claim C10: for `reduction_factor ≥ 2` and a non-empty competing list
the clamped index is non-negative and both sorted-list accesses
(`sorted[idx]` for minimize and `sorted[len - (idx+1)]` for maximize) are
in range. -/
theorem claim_C10 (cs : List ℚ) (rf : ℤ) (h1 : cs ≠ []) (h2 : 2 ≤ rf) :
    0 ≤ promotableIdx cs.length rf ∧
    (promotableIdx cs.length rf).toNat < (cs.insertionSort (· ≤ ·)).length ∧
    (cs.insertionSort (· ≤ ·)).length -
        ((promotableIdx cs.length rf).toNat + 1) < (cs.insertionSort (· ≤ ·)).length := by
  have hn : 1 ≤ cs.length := List.length_pos.mpr h1
  have hlen : (cs.insertionSort (· ≤ ·)).length = cs.length :=
    List.length_insertionSort _ _
  have hdiv : 0 ≤ (cs.length : ℤ) / rf := Int.ediv_nonneg (by positivity) (by omega)
  have hle : (cs.length : ℤ) / rf ≤ (cs.length : ℤ) := Int.ediv_le_self rf (by positivity)
  unfold promotableIdx
  rw [hlen]
  set d : ℤ := (cs.length : ℤ) / rf with hd
  by_cases hc : d - 1 = -1
  · rw [if_pos hc]
    refine ⟨le_refl 0, by omega, by omega⟩
  · rw [if_neg hc]
    refine ⟨by omega, by omega, by omega⟩

/-- Witness for C10 at the concrete list `[3, 5, 5, 5, 4]` with
`reduction_factor = 2`. -/
theorem claim_C10_witness :
    ([(3 : ℚ), 5, 5, 5, 4] ≠ []) ∧ ((2 : ℤ) ≤ 2) ∧
      (0 ≤ promotableIdx [(3 : ℚ), 5, 5, 5, 4].length 2 ∧
      (promotableIdx [(3 : ℚ), 5, 5, 5, 4].length 2).toNat <
        ([(3 : ℚ), 5, 5, 5, 4].insertionSort (· ≤ ·)).length ∧
      ([(3 : ℚ), 5, 5, 5, 4].insertionSort (· ≤ ·)).length -
          ((promotableIdx [(3 : ℚ), 5, 5, 5, 4].length 2).toNat + 1) <
        ([(3 : ℚ), 5, 5, 5, 4].insertionSort (· ≤ ·)).length) :=
  ⟨by decide, by decide, claim_C10 [(3 : ℚ), 5, 5, 5, 4] 2 (by decide) (by decide)⟩

/-- Claim C4: a trial whose last-reported value is NaN, with its last step
at or past the threshold of its current rung (the least unmarked rung
`k`), is pruned, and the call writes no completion marker. -/
theorem claim_C4 (cfg : SuccessiveHalvingPruner) (study : Study) (t : FrozenTrial)
    (step k : ℕ)
    (hlast : t.last = some (step, Fl.nan))
    (hmk : ∀ r, r < k → isMarked t r = true) (hub : isMarked t k = false)
    (hstep : rungPromotionStep cfg k ≤ (step : ℤ)) :
    prune cfg study t = (true, []) := by
  have hcr := getCurrentRung_eq t k hmk hub
  have h1 : ¬((step : ℤ) < rungPromotionStep cfg k) := not_lt.mpr hstep
  simp [prune, hlast, hcr, pruneLoop, h1]

/-- Witness for C4: `trialN` reports NaN at step 1, at the first rung
threshold of `cfg0`; it is pruned with no marker written. -/
theorem claim_C4_witness :
    trialN.last = some (1, Fl.nan) ∧
    (∀ r, r < 0 → isMarked trialN r = true) ∧
    isMarked trialN 0 = false ∧
    rungPromotionStep cfg0 0 ≤ ((1 : ℕ) : ℤ) ∧
    prune cfg0 study0 trialN = (true, []) :=
  ⟨rfl, fun r hr => absurd hr (Nat.not_lt_zero r), by decide, by decide,
    claim_C4 cfg0 study0 trialN 1 0 rfl (fun r hr => absurd hr (Nat.not_lt_zero r))
      (by decide) (by decide)⟩

/-- Claim C6: a trial whose last step is strictly below the threshold of
its current rung (the least unmarked rung `k`) is not pruned and the call
writes nothing. -/
theorem claim_C6 (cfg : SuccessiveHalvingPruner) (study : Study) (t : FrozenTrial)
    (step : ℕ) (v : Fl) (k : ℕ)
    (hlast : t.last = some (step, v))
    (hmk : ∀ r, r < k → isMarked t r = true) (hub : isMarked t k = false)
    (hstep : (step : ℤ) < rungPromotionStep cfg k) :
    prune cfg study t = (false, []) := by
  have hcr := getCurrentRung_eq t k hmk hub
  simp [prune, hlast, hcr, pruneLoop, hstep]

/-- Witness for C6: `trialV` last reported at step 0, below `cfg0`'s first
rung threshold 1; it is not pruned and nothing is written. -/
theorem claim_C6_witness :
    trialV.last = some (0, Fl.val 7) ∧
    (∀ r, r < 0 → isMarked trialV r = true) ∧
    isMarked trialV 0 = false ∧
    (((0 : ℕ) : ℤ) < rungPromotionStep cfg0 0) ∧
    prune cfg0 study0 trialV = (false, []) :=
  ⟨rfl, fun r hr => absurd hr (Nat.not_lt_zero r), by decide, by decide,
    claim_C6 cfg0 study0 trialV 0 (Fl.val 7) 0 rfl
      (fun r hr => absurd hr (Nat.not_lt_zero r)) (by decide) (by decide)⟩

/-- Claim C5: starting from a trial whose persisted markers form a prefix
of the naturals, the markers still form a prefix after applying the writes
of any `prune` invocation. -/
theorem claim_C5 (cfg : SuccessiveHalvingPruner) (study : Study) (t : FrozenTrial)
    (hp : PrefixMarked t) :
    PrefixMarked (applyWrites t (prune cfg study t).2) := by
  obtain ⟨K, hK⟩ := hp
  cases hlast : t.last with
  | none =>
      have hpr : prune cfg study t = (false, []) := by simp [prune, hlast]
      rw [hpr, applyWrites_nil]
      exact ⟨K, hK⟩
  | some sv =>
      obtain ⟨step, v⟩ := sv
      have hmk : ∀ r, r < K → isMarked t r = true := fun r hr => (hK r).mpr hr
      have hub : isMarked t K = false := by
        cases h : isMarked t K
        · rfl
        · exact absurd ((hK K).mp h) (lt_irrefl K)
      have hcr := getCurrentRung_eq t K hmk hub
      have hpr : prune cfg study t
          = pruneLoop cfg study step v K [] ((step + 1) + 1) := by
        simp [prune, hlast, hcr]
      obtain ⟨m, hm, hiff⟩ := pruneLoop_writes cfg study step v ((step + 1) + 1) K []
      refine ⟨m, ?_⟩
      intro r
      rw [hpr, applyWrites_isMarked, hK r, hiff r]
      simp only [List.map_nil, List.not_mem_nil, false_or]
      omega

/-- Witness for C5: `trialT` has no markers (a prefix with `k = 0`), and
after one `prune` call its markers still form a prefix. -/
theorem claim_C5_witness :
    PrefixMarked trialT ∧
    PrefixMarked (applyWrites trialT (prune cfg0 study0 trialT).2) :=
  ⟨⟨0, fun r => by simp [isMarked, trialT, List.lookup]⟩,
    claim_C5 cfg0 study0 trialT ⟨0, fun r => by simp [isMarked, trialT, List.lookup]⟩⟩

/-- Claim C2 (amended): calling the prune decision twice in succession with
the trial's last report unchanged and no competitor markers added by other
trials, starting from a trial whose markers form a prefix: the second call
writes no marker for any rung that already has one, and if the first call
returned `false` (do not prune) the second call returns `false` as well. -/
theorem claim_C2 (cfg : SuccessiveHalvingPruner) (study : Study) (t : FrozenTrial)
    (hv : validConfig cfg) (hp : PrefixMarked t) :
    (∀ p ∈ (prune cfg (updateStudy study t.trial_id (prune cfg study t).2)
        (applyWrites t (prune cfg study t).2)).2,
      isMarked (applyWrites t (prune cfg study t).2) p.1 = false) ∧
    ((prune cfg study t).1 = false →
      (prune cfg (updateStudy study t.trial_id (prune cfg study t).2)
        (applyWrites t (prune cfg study t).2)).1 = false) := by
  obtain ⟨K, hK⟩ := hp
  cases hlast : t.last with
  | none =>
      have hpr : prune cfg study t = (false, []) := by simp [prune, hlast]
      rw [hpr]
      dsimp only
      rw [applyWrites_nil]
      have hpr2 : prune cfg (updateStudy study t.trial_id []) t = (false, []) := by
        simp [prune, hlast]
      rw [hpr2]
      exact ⟨fun p hp2 => absurd hp2 (List.not_mem_nil p), fun _ => rfl⟩
  | some sv =>
      obtain ⟨step, v⟩ := sv
      have hmk : ∀ r, r < K → isMarked t r = true := fun r hr => (hK r).mpr hr
      have hub : isMarked t K = false := by
        cases h : isMarked t K
        · rfl
        · exact absurd ((hK K).mp h) (lt_irrefl K)
      have hcr := getCurrentRung_eq t K hmk hub
      have hpr : prune cfg study t
          = pruneLoop cfg study step v K [] ((step + 1) + 1) := by
        simp [prune, hlast, hcr]
      rcases hres : pruneLoop cfg study step v K [] ((step + 1) + 1) with ⟨b1, ws1⟩
      rw [hpr, hres]
      dsimp only
      obtain ⟨m1, hm1, hiff1r⟩ := pruneLoop_writes cfg study step v ((step + 1) + 1) K []
      rw [hres] at hiff1r
      have hiff1 : ∀ i, i ∈ ws1.map Prod.fst ↔ (K ≤ i ∧ i < m1) := by
        intro i
        rw [hiff1r i]
        simp
      have hchar : ∀ r, isMarked (applyWrites t ws1) r = true ↔ r < m1 := by
        intro r
        rw [applyWrites_isMarked, hK r, hiff1 r]
        omega
      have hub2 : isMarked (applyWrites t ws1) m1 = false := by
        cases h : isMarked (applyWrites t ws1) m1
        · rfl
        · exact absurd ((hchar m1).mp h) (lt_irrefl m1)
      have hcr2 := getCurrentRung_eq (applyWrites t ws1) m1
        (fun r hr => (hchar r).mpr hr) hub2
      have hl2 : (applyWrites t ws1).last = some (step, v) := by
        rw [applyWrites_last]
        exact hlast
      have hpr2 : prune cfg (updateStudy study t.trial_id ws1) (applyWrites t ws1)
          = pruneLoop cfg (updateStudy study t.trial_id ws1) step v m1 [] ((step + 1) + 1) := by
        simp [prune, hl2, hcr2]
      rcases hres2 : pruneLoop cfg (updateStudy study t.trial_id ws1) step v m1 []
          ((step + 1) + 1) with ⟨b2, ws2⟩
      obtain ⟨m2, hm2, hiff2r⟩ := pruneLoop_writes cfg (updateStudy study t.trial_id ws1)
        step v ((step + 1) + 1) m1 []
      rw [hres2] at hiff2r
      constructor
      · intro p hp2
        rw [hpr2, hres2] at hp2
        dsimp only at hp2
        have hkey : p.1 ∈ ws2.map Prod.fst := List.mem_map_of_mem Prod.fst hp2
        have hge : m1 ≤ p.1 := by
          have hmem := (hiff2r p.1).mp hkey
          simp only [List.map_nil, List.not_mem_nil, false_or] at hmem
          exact hmem.1
        cases h : isMarked (applyWrites t ws1) p.1
        · rfl
        · exact absurd ((hchar p.1).mp h) (by omega)
      · intro hb1
        subst hb1
        obtain ⟨m, hKm, hthr, hiffFr⟩ :=
          pruneLoop_false cfg study step v hv ((step + 1) + 1) K [] ws1 (by omega) hres
        have hiffF : ∀ i, i ∈ ws1.map Prod.fst ↔ (K ≤ i ∧ i < m) := by
          intro i
          rw [hiffFr i]
          simp
        have hmm : m1 = m := by
          by_contra hne
          rcases Nat.lt_or_ge m1 m with hlt | hge2
          · have hmem := (hiffF m1).mpr ⟨hm1, hlt⟩
            have := (hiff1 m1).mp hmem
            omega
          · have hlt2 : m < m1 := by omega
            have hmem := (hiff1 m).mpr ⟨hKm, hlt2⟩
            have := (hiffF m).mp hmem
            omega
        have hstop := pruneLoop_stop cfg (updateStudy study t.trial_id ws1) step v m1 []
          (step + 1) (by rw [hmm]; exact hthr)
        have heq2 : (false, ([] : List (ℕ × ℚ))) = (b2, ws2) := by rw [← hstop, hres2]
        rw [hpr2, hres2]
        injection heq2 with hfst _
        exact hfst.symm

/-- Counterexample to C2 as stated: with `cfg0` (thresholds 1, 2, 4) and a
competitor marker with value 1 at rung 0, `trialT` (last report step 2,
value 10) is pruned at rung 0 on the first call, but a second call with
nothing changed except the first call's own marker write starts at rung 1,
finds itself alone there, promotes, and returns "do not prune" — the two
calls return different booleans. -/
theorem claim_C2_counterexample :
    (prune cfg0 study0 trialT).1 = true ∧
    (prune cfg0 (updateStudy study0 trialT.trial_id (prune cfg0 study0 trialT).2)
      (applyWrites trialT (prune cfg0 study0 trialT).2)).1 = false := by
  refine ⟨by decide, by decide⟩

/-- Witness for C2's amended statement at the concrete scenario of the
counterexample: the hypotheses hold for `cfg0`, `study0`, `trialT`. -/
theorem claim_C2_witness :
    validConfig cfg0 ∧ PrefixMarked trialT ∧
    ((∀ p ∈ (prune cfg0 (updateStudy study0 trialT.trial_id (prune cfg0 study0 trialT).2)
        (applyWrites trialT (prune cfg0 study0 trialT).2)).2,
      isMarked (applyWrites trialT (prune cfg0 study0 trialT).2) p.1 = false) ∧
    ((prune cfg0 study0 trialT).1 = false →
      (prune cfg0 (updateStudy study0 trialT.trial_id (prune cfg0 study0 trialT).2)
        (applyWrites trialT (prune cfg0 study0 trialT).2)).1 = false)) :=
  ⟨by decide, ⟨0, fun r => by simp [isMarked, trialT, List.lookup]⟩,
    claim_C2 cfg0 study0 trialT (by decide)
      ⟨0, fun r => by simp [isMarked, trialT, List.lookup]⟩⟩

end SuccessiveHalving
